import Mathlib

set_option linter.unusedVariables false

/-! # Verification of the Ren'Py auto-translator batch pipeline

Shallow embedding of the batch-translation core of `Py/translatev7.py`
(class `RenPyAutoTranslator`).  Python strings are modelled as
`List Char`; the external `trans` subprocess is modelled as a function
`Svc` from the text argument passed on the command line to an abstract
process outcome `SvcResp`.  Logging and counter updates are pure
reporting in the source (never read for control flow) and are omitted.
The batch mode (`USE_BATCH = True`) is the mode under study. -/

/-- Characters removed by Python `str.strip()` with no argument. -/
def pyIsSpace (c : Char) : Bool :=
  c = ' ' || c = '\t' || c = '\n' || c = '\r' || c = '\x0b' || c = '\x0c'

/-- Python `str.lstrip()`. -/
def pyLStrip (s : List Char) : List Char := s.dropWhile pyIsSpace

/-- Python `str.rstrip()`. -/
def pyRStrip (s : List Char) : List Char := ((s.reverse).dropWhile pyIsSpace).reverse

/-- Python `str.strip()`. -/
def pyStrip (s : List Char) : List Char := pyRStrip (pyLStrip s)

/-- Python `str.lower()` (ASCII case folding; all texts compared here are ASCII). -/
def lowerL (s : List Char) : List Char := s.map Char.toLower

/-- Python `needle in hay` on strings: substring test. -/
def pyContains : List Char → List Char → Bool
  | [], needle => needle.isEmpty
  | c :: rest, needle => needle.isPrefixOf (c :: rest) || pyContains rest needle

/-- `BATCH_SEPARATOR = "|~|~|"` (source line 30). -/
def BATCH_SEPARATOR : List Char := "|~|~|".data

/-- `BATCH_SIZE = 5` (source line 31). -/
def BATCH_SIZE : Nat := 5

/-- `MAX_BATCH_CHARS = 1000` (source line 32). -/
def MAX_BATCH_CHARS : Nat := 1000

/-- Outcome of one `subprocess.run(["trans", ...])` invocation:
either `subprocess.TimeoutExpired`, some other exception, or a completed
process with return code, stdout and stderr. -/
inductive SvcResp
  | timeout
  | exn (msg : List Char)
  | done (returncode : Int) (stdout stderr : List Char)

/-- The external translation service: maps the text argument handed to
the `trans` command to the process outcome. -/
def Svc : Type := List Char → SvcResp

/-- Failure cases of `_do_translation_single` (the error strings of the
source, as an enumeration). -/
inductive SingleError
  | cmdFailed (msg : List Char)
  | emptyOrError
  | timeout
  | unexpected (msg : List Char)
deriving DecidableEq

/-- Python `a or b or c` over strings: the first non-empty one. -/
def firstNonEmptyMsg (a b dflt : List Char) : List Char :=
  if a ≠ [] then a else if b ≠ [] then b else dflt

/-- `_do_translation_single` (source lines 142-168). -/
def doSingle (svc : Svc) (text : List Char) : Except SingleError (List Char) :=
  match svc text with
  | .timeout => .error .timeout
  | .exn m => .error (.unexpected m)
  | .done rc out err =>
    if rc ≠ 0 then
      .error (.cmdFailed (firstNonEmptyMsg (pyStrip err) (pyStrip out)
        "Translation command failed".data))
    else
      let translated := pyStrip out
      if translated.isEmpty || pyContains (lowerL translated) "error".data
          || pyContains (lowerL translated) "failed".data then
        .error .emptyOrError
      else .ok translated

/-- `_translate_text` (source lines 245-272), stat counters and logging
omitted: returns the translation, or the original text on empty input or
on any service failure. -/
def translateText (svc : Svc) (text : List Char) : List Char :=
  if pyStrip text = [] then text
  else
    match doSingle svc text with
    | .error _ => text
    | .ok translated => if translated = [] then text else translated

/-- Failure cases of `_do_translation_batch` (the error strings of the
source, as an enumeration carrying the interpolated data). -/
inductive BatchError
  | emptyBatch
  | batchTooLong (got limit : Nat)
  | separatorCollision
  | cmdFailed (msg : List Char)
  | emptyResult
  | separatorLost
  | countMismatch (expected got : Nat)
  | timeout
  | unexpected (msg : List Char)
deriving DecidableEq

/-- Python `s.split(sep)` for a non-empty `sep`; the accumulator holds
the current piece reversed.  The first argument is fuel, always called
with at least the length of the scanned string (each step consumes at
least one character), which keeps the recursion structural. -/
def splitAcc (sep : List Char) : Nat → List Char → List Char → List (List Char)
  | _, [], acc => [acc.reverse]
  | 0, l, acc => [acc.reverse ++ l]
  | fuel + 1, c :: rest, acc =>
    if sep ≠ [] ∧ sep.isPrefixOf (c :: rest) then
      acc.reverse :: splitAcc sep fuel ((c :: rest).drop sep.length) []
    else
      splitAcc sep fuel rest (c :: acc)

/-- Python `s.split(sep)`. -/
def pySplit (s sep : List Char) : List (List Char) := splitAcc sep s.length s []

/-- The delimiter variant list of `_do_translation_batch`
(source lines 211-217): lower case, upper case, and the three
whitespace-padded forms. -/
def sepVariants : List (List Char) :=
  [lowerL BATCH_SEPARATOR,
   BATCH_SEPARATOR.map Char.toUpper,
   (' ' :: BATCH_SEPARATOR) ++ [' '],
   ' ' :: BATCH_SEPARATOR,
   BATCH_SEPARATOR ++ [' ']]

/-- The branch of `_do_translation_batch` that picks the string on which
the response is split (source lines 209-229): the exact separator if it
occurs in the response, otherwise the first matching variant, otherwise
none (`"Separator not preserved in translation"`). -/
def findSplitToken (translated : List Char) : Option (List Char) :=
  if pyContains translated BATCH_SEPARATOR then some BATCH_SEPARATOR
  else sepVariants.find? (fun v => pyContains translated v)

/-- `parts = [p.strip() for p in parts if p.strip()]` (source line 232). -/
def cleanParts (translated tok : List Char) : List (List Char) :=
  ((pySplit translated tok).map pyStrip).filter (fun p => !p.isEmpty)

/-- The response-decoding tail of `_do_translation_batch`
(source lines 204-238): strip, reject empty, find the split token, split,
strip the parts discarding empty ones, and check the count. -/
def decodeBatchResponse (nTexts : Nat) (stdout : List Char) :
    Except BatchError (List (List Char)) :=
  if pyStrip stdout = [] then .error .emptyResult
  else
    match findSplitToken (pyStrip stdout) with
    | none => .error .separatorLost
    | some tok =>
      if (cleanParts (pyStrip stdout) tok).length ≠ nTexts then
        .error (.countMismatch nTexts (cleanParts (pyStrip stdout) tok).length)
      else .ok (cleanParts (pyStrip stdout) tok)

/-- `_do_translation_batch` (source lines 170-243). -/
def doBatch (svc : Svc) (texts : List (List Char)) :
    Except BatchError (List (List Char)) :=
  if texts = [] then .error .emptyBatch
  else
    if (List.intercalate BATCH_SEPARATOR texts).length > MAX_BATCH_CHARS then
      .error (.batchTooLong (List.intercalate BATCH_SEPARATOR texts).length MAX_BATCH_CHARS)
    else if texts.any (fun t => pyContains t BATCH_SEPARATOR) then
      .error .separatorCollision
    else
      match svc (List.intercalate BATCH_SEPARATOR texts) with
      | .timeout => .error .timeout
      | .exn m => .error (.unexpected m)
      | .done rc out err =>
        if rc ≠ 0 then
          .error (.cmdFailed (firstNonEmptyMsg (pyStrip err) (pyStrip out)
            "Batch translation failed".data))
        else decodeBatchResponse texts.length out

/-- One regex match of `"([^"]*)"` on a line: `start` and `stop` are
`match.start()` and `match.end()` (offset of the opening quote, one past
the closing quote); `text` is capture group 1.  (`stop` stands for the
Python attribute `end`, a reserved word here.) -/
structure Span where
  start : Nat
  stop : Nat
  text : List Char
deriving DecidableEq

/-- Split a character list at its first `'"'`: `some (before, after)`,
or `none` when no quote occurs. -/
def splitAtQuote : List Char → Option (List Char × List Char)
  | [] => none
  | c :: rest =>
    if c = '"' then some ([], rest)
    else (splitAtQuote rest).map (fun p => (c :: p.1, p.2))

theorem splitAtQuote_eq :
    ∀ (l a b : List Char), splitAtQuote l = some (a, b) → l = a ++ '"' :: b := by
  intro l
  induction l with
  | nil => intro a b h; simp [splitAtQuote] at h
  | cons c rest ih =>
    intro a b h
    by_cases hc : c = '"'
    · rw [splitAtQuote, if_pos hc] at h
      injection h with h
      obtain ⟨h1, h2⟩ := Prod.mk.inj h
      subst h1; subst h2
      simp [hc]
    · rw [splitAtQuote] at h
      simp only [if_neg hc, Option.map_eq_some'] at h
      obtain ⟨⟨p, q⟩, hpq, hf⟩ := h
      obtain ⟨h1, h2⟩ := Prod.mk.inj hf
      subst h1; subst h2
      rw [ih p q hpq]
      simp

/-- `re.finditer(r'"([^"]*)"', line)`: leftmost non-overlapping matches,
scanning the suffix whose head sits at absolute offset `pos`.  The first
argument is fuel, always called with at least the length of the scanned
suffix (each step consumes at least one character), which keeps the
recursion structural. -/
def findMatchesGo : Nat → List Char → Nat → List Span
  | _, [], _ => []
  | 0, _ :: _, _ => []
  | fuel + 1, c :: rest, pos =>
    if c = '"' then
      match splitAtQuote rest with
      | some (inner, rest') =>
        ⟨pos, pos + inner.length + 2, inner⟩ ::
          findMatchesGo fuel rest' (pos + inner.length + 2)
      | none => []
    else findMatchesGo fuel rest (pos + 1)

/-- `list(re.finditer(r'"([^"]*)"', original_line))`. -/
def findMatches (line : List Char) : List Span := findMatchesGo line.length line 0

/-- `self.skip_keywords` (source lines 60-68). -/
def skip_keywords : List (List Char) :=
  ["show ", "scene ", "play ", "stop ", "queue ",
   "image ", "define ", "transform ", "screen ",
   "jump ", "call ", "return", "menu:", "if ",
   "python:", "init ", "label ", "with ",
   "hide ", "at ", "as ", "$", "pause",
   "nvl ", "window ", "voice ", "sound ",
   "music ", "audio ", "renpy.", "camera "].map String.data

/-- `_should_translate` (source lines 118-140): the SpanClassifier. -/
def shouldTranslate (line : List Char) (m : Span) : Bool :=
  let before_quote := lowerL (pyStrip (line.take m.start))
  if skip_keywords.any (fun kw => (lowerL kw).isPrefixOf before_quote) then false
  else if pyContains before_quote "$".data then false
  else if ":".data.isSuffixOf before_quote then false
  else if "old".data.isSuffixOf before_quote then false
  else if ([".png".data, ".jpg".data, ".mp3".data, ".ogg".data, ".wav".data].any
             (fun ext => ext.isSuffixOf m.text))
          || pyContains m.text "/".data || pyContains m.text "\\".data then false
  else true

/-- The `'type': 'pending'` record built by `_process_line` in batch mode
(source lines 359-378). -/
structure PendingInfo where
  original_line : List Char
  line_num : Nat
  matchList : List Span
  texts_to_translate : List Span
deriving DecidableEq

/-- The pending-record construction of `_process_line`: find the quoted
spans and keep those that classify as translatable with non-blank text.
(`matchList` renders the dict key `'matches'`, a reserved word here.) -/
def mkPending (original_line : List Char) (line_num : Nat) : PendingInfo :=
  let ms := findMatches original_line
  { original_line := original_line, line_num := line_num, matchList := ms,
    texts_to_translate :=
      ms.filter (fun m => shouldTranslate original_line m && !(pyStrip m.text).isEmpty) }

/-- Result of `_process_line` in batch mode: either the raw line passed
through verbatim, or a pending record. -/
inductive Processed
  | passthrough (out : List Char)
  | pending (info : PendingInfo)

def Processed.isPassthrough : Processed → Bool
  | .passthrough _ => true
  | .pending _ => false

/-- `_process_line` in batch mode (source lines 333-378): blank lines,
comment lines and `$` lines are passed through verbatim; everything else
becomes a pending record. -/
def processLine (line : List Char) (line_num : Nat) : Processed :=
  let original_line := pyRStrip line
  if (pyStrip original_line).isEmpty
      || "#".data.isPrefixOf (pyStrip original_line)
      || "$".data.isPrefixOf (pyStrip original_line) then
    .passthrough line
  else
    .pending (mkPending original_line line_num)

/-- A queued batch item (the dict of source lines 392-397). -/
structure BatchItem where
  text : List Char
  line_num : Nat
  span : Span
  original_line : List Char
deriving DecidableEq

/-- The translation result map, a Python dict keyed by
`(line_num, text)`, modelled by its lookup function. -/
def TMap : Type := Nat × List Char → Option (List Char)

def TMap.empty : TMap := fun _ => none

/-- `d[k] = v`. -/
def TMap.insert (m : TMap) (k : Nat × List Char) (v : List Char) : TMap :=
  fun k' => if k' = k then some v else m k'

/-- `d.update(new)`: entries of `new` win. -/
def TMap.update (m new : TMap) : TMap :=
  fun k => match new k with | some v => some v | none => m k

/-- `d.get(k, dflt)`. -/
def TMap.getD (m : TMap) (k : Nat × List Char) (dflt : List Char) : List Char :=
  (m k).getD dflt

/-- The key `(item['line_num'], item['text'])` used everywhere results
are mapped back. -/
def batchKey (it : BatchItem) : Nat × List Char := (it.line_num, it.text)

/-- The fallback loop of `_process_batch_translation` (source lines
321-329): one `_translate_text` call per item. -/
def fallbackMap (svc : Svc) (items : List BatchItem) : TMap :=
  items.foldl (fun m it => m.insert (batchKey it) (translateText svc it.text)) TMap.empty

/-- `_process_batch_translation` (source lines 274-331). -/
def processBatchTranslation (svc : Svc) (batch_items : List BatchItem) : TMap :=
  if batch_items.isEmpty then TMap.empty
  else
    match doBatch svc (batch_items.map BatchItem.text) with
    | .ok translations =>
      if translations.isEmpty then fallbackMap svc batch_items
      else (batch_items.zip translations).foldl
             (fun m p => m.insert (batchKey p.1) p.2) TMap.empty
    | .error _ => fallbackMap svc batch_items

/-- `batch_items[i:i+BATCH_SIZE] for i in range(0, len, BATCH_SIZE)`.
The first argument is fuel, always called with the length of the list
(each step consumes at least one element), keeping the recursion
structural. -/
def chunkBatchesGo : Nat → List BatchItem → List (List BatchItem)
  | _, [] => []
  | 0, l => [l]
  | fuel + 1, x :: xs =>
    (x :: xs).take BATCH_SIZE :: chunkBatchesGo fuel ((x :: xs).drop BATCH_SIZE)

def chunkBatches (l : List BatchItem) : List (List BatchItem) :=
  chunkBatchesGo l.length l

/-- Descending insertion by `start`; `sortDesc` models
`sorted(texts_to_translate, key=lambda x: x[1].start(), reverse=True)`
(source lines 417-419; all starts are distinct here, so any descending
sort is the one Python computes). -/
def insertDesc (s : Span) : List Span → List Span
  | [] => [s]
  | t :: ts => if t.start ≤ s.start then s :: t :: ts else t :: insertDesc s ts

def sortDesc (l : List Span) : List Span := l.foldr insertDesc []

/-- The per-line substitution loop of `_process_pending_lines` (source
lines 412-429): look each span up under `(line_num, text)` falling back
to the original text, splice the quoted translation over
`[start, stop)` in descending start order, and append the newline. -/
def rewriteLine (translations : TMap) (info : PendingInfo) : List Char :=
  ((sortDesc info.texts_to_translate).foldl
    (fun final_line s =>
      let translated := translations.getD (info.line_num, s.text) s.text
      final_line.take s.start ++ '"' :: (translated ++ '"' :: final_line.drop s.stop))
    info.original_line) ++ ['\n']

/-- `_process_pending_lines` (source lines 380-431), with each produced
line tagged by the `line_num` of the pending record it came from:
flatten the spans into batch items, chunk by `BATCH_SIZE`, translate each
chunk accumulating the map, then rewrite every pending line. -/
def processPendingTagged (svc : Svc) (pending_lines : List PendingInfo) :
    List (Nat × List Char) :=
  let batch_items := pending_lines.flatMap (fun info =>
    info.texts_to_translate.map (fun s =>
      { text := s.text, line_num := info.line_num, span := s,
        original_line := info.original_line : BatchItem }))
  let all_translations := (chunkBatches batch_items).foldl
    (fun m batch => m.update (processBatchTranslation svc batch)) TMap.empty
  pending_lines.map (fun info => (info.line_num, rewriteLine all_translations info))

/-- The loop state of the batch-mode main loop of `run`: the emitted
lines (tagged by source line number) and the pending set. -/
structure RunSt where
  results : List (Nat × List Char)
  pending : List PendingInfo

/-- One iteration of the batch-mode loop of `run` (source lines 577-595):
passthrough lines are appended to the results at once; pending lines are
buffered and the buffer is flushed when it reaches `BATCH_SIZE`, at the
last line, or every 100 lines. -/
def stepLine (svc : Svc) (total : Nat) (st : RunSt) (i : Nat) (line : List Char) : RunSt :=
  match processLine line i with
  | .passthrough out => { st with results := st.results ++ [(i, out)] }
  | .pending info =>
    let pending' := st.pending ++ [info]
    if BATCH_SIZE ≤ pending'.length ∨ i = total ∨ i % 100 = 0 then
      { results := st.results ++ processPendingTagged svc pending', pending := [] }
    else
      { st with pending := pending' }

def runFrom (svc : Svc) (total : Nat) : RunSt → Nat → List (List Char) → RunSt
  | st, _, [] => st
  | st, i, l :: ls => runFrom svc total (stepLine svc total st i l) (i + 1) ls

/-- The batch-mode main loop of `run` (source lines 572-604) over the
lines of the input file, each emitted line tagged with the source line
number it came from (the loop index `i` of `enumerate(lines, 1)`).
Note: the loop ends after the last line with no further flush, exactly
as in the source. -/
def runBatchTagged (svc : Svc) (lines : List (List Char)) : List (Nat × List Char) :=
  (runFrom svc lines.length ⟨[], []⟩ 1 lines).results

/-- The output lines actually written by `f.writelines(results)`. -/
def runBatch (svc : Svc) (lines : List (List Char)) : List (List Char) :=
  (runBatchTagged svc lines).map Prod.snd

/-- Run predicate: every passthrough line is read while the pending set
is empty.  This is the regime in which the driver keeps the original
line order. -/
def cleanFrom (svc : Svc) (total : Nat) : RunSt → Nat → List (List Char) → Bool
  | _, _, [] => true
  | st, i, l :: ls =>
    (!(processLine l i).isPassthrough || st.pending.isEmpty)
      && cleanFrom svc total (stepLine svc total st i l) (i + 1) ls

/-- Simultaneous replacement, following the spec's words (LineRewriter,
section 4.4): each span's byte range `[start, stop)` is carved out of the
*original* text and replaced by the quoted translation; spans are given
in ascending start order and `base` is the absolute offset of the head
of `cs`. -/
def replaceRanges (cs : List Char) (base : Nat) : List (Span × List Char) → List Char
  | [] => cs
  | (s, t) :: rest =>
    cs.take (s.start - base) ++ '"' :: (t ++ '"' ::
      replaceRanges (cs.drop (s.stop - base)) s.stop rest)

/-! ## Concrete fixtures used to exercise the model -/

/-- A service that always times out. -/
def svc0 : Svc := fun _ => .timeout

/-- A 1001-character text that contains the separator. -/
def bigText1001 : List Char := List.replicate 996 'a' ++ BATCH_SEPARATOR

/-- A service answering the batch `"a|~|~|b"` with three segments. -/
def svc3 : Svc := fun t =>
  if t = "a|~|~|b".data then .done 0 "x|~|~|y|~|~|z".data [] else .timeout

def items3 : List BatchItem :=
  [⟨"a".data, 1, ⟨0, 3, "a".data⟩, "\"a\"".data⟩,
   ⟨"b".data, 2, ⟨0, 3, "b".data⟩, "\"b\"".data⟩]

def items4 : List BatchItem := [⟨"hi".data, 1, ⟨0, 4, "hi".data⟩, "\"hi\"".data⟩]

/-- A service that exits 0 but whose output contains the word `failed`. -/
def svcWord : Svc := fun _ => .done 0 "Mission failed successfully".data []

def line7 : List Char := "\"Hello there\" \"image.png\"".data

def span7 : Span := ⟨14, 25, "image.png".data⟩

def tmap7 : TMap := TMap.insert TMap.empty (1, "Hello there".data) "Halo".data

def texts8 : List (List Char) :=
  ["good morning", "thank you", "see you", "welcome", "hello"].map String.data

/-- The batch response with stray spaces around every separator. -/
def resp8 : List Char :=
  ("Selamat pagi |~|~| terima kasih |~|~| sampai jumpa |~|~| " ++
   "selamat datang |~|~| halo").data

def svc8 : Svc := fun t =>
  if t = List.intercalate BATCH_SEPARATOR texts8 then .done 0 resp8 [] else .timeout

def parts8 : List (List Char) :=
  ["Selamat pagi", "terima kasih", "sampai jumpa", "selamat datang", "halo"].map
    String.data

def items8 : List BatchItem :=
  (List.range' 1 5).zip texts8 |>.map (fun p =>
    ⟨p.2, p.1, ⟨0, p.2.length + 2, p.2⟩, '"' :: (p.2 ++ ['"'])⟩)

/-- Input file whose deferred first line sits behind a trailing comment
line. -/
def fileTrailing : List (List Char) := ["\"Hello\"\n".data, "# end\n".data]

/-- Input file with a comment line interleaved between two candidate
lines. -/
def fileInterleaved : List (List Char) :=
  ["\"A\"\n".data, "# c\n".data, "\"B\"\n".data]

/-- Input file whose comment line is read while nothing is pending. -/
def fileClean : List (List Char) := ["# a\n".data, "\"Hi\"\n".data]

/-! ## Substring facts -/

theorem isPrefixOf_eq_append :
    ∀ (a l : List Char), a.isPrefixOf l = true ↔ ∃ t, l = a ++ t := by
  intro a
  induction a with
  | nil => intro l; simp [List.isPrefixOf]
  | cons x xs ih =>
    intro l
    cases l with
    | nil => simp [List.isPrefixOf]
    | cons y ys =>
      simp only [List.isPrefixOf, Bool.and_eq_true, beq_iff_eq, ih ys, List.cons_append,
        List.cons.injEq]
      constructor
      · rintro ⟨rfl, t, rfl⟩; exact ⟨t, rfl, rfl⟩
      · rintro ⟨t, rfl, rfl⟩; exact ⟨rfl, t, rfl⟩

theorem pyContains_iff (hay needle : List Char) :
    pyContains hay needle = true ↔ ∃ p q, hay = p ++ needle ++ q := by
  induction hay with
  | nil =>
    simp only [pyContains, List.isEmpty_iff]
    constructor
    · rintro rfl; exact ⟨[], [], rfl⟩
    · rintro ⟨p, q, h⟩
      rcases List.append_eq_nil.mp h.symm with ⟨h1, h2⟩
      exact (List.append_eq_nil.mp h1).2
  | cons c rest ih =>
    simp only [pyContains, Bool.or_eq_true, isPrefixOf_eq_append, ih]
    constructor
    · rintro (⟨t, ht⟩ | ⟨p, q, hpq⟩)
      · exact ⟨[], t, by simp [ht]⟩
      · exact ⟨c :: p, q, by simp [hpq]⟩
    · rintro ⟨p, q, hpq⟩
      cases p with
      | nil => exact Or.inl ⟨q, by simpa using hpq⟩
      | cons p0 ps =>
        right
        refine ⟨ps, q, ?_⟩
        have h2 : c :: rest = p0 :: (ps ++ (needle ++ q)) := by
          rw [hpq]; simp
        exact (List.cons.injEq c rest p0 (ps ++ (needle ++ q))).mp h2 |>.2.trans
          (by simp)

theorem pyContains_trans {a b c : List Char}
    (h1 : pyContains b a = true) (h2 : pyContains c b = true) :
    pyContains c a = true := by
  rw [pyContains_iff] at h1 h2 ⊢
  obtain ⟨p, q, rfl⟩ := h1
  obtain ⟨u, v, rfl⟩ := h2
  exact ⟨u ++ p, q ++ v, by simp⟩

/-! ## Result-map lookup facts -/

theorem foldl_insert_skip {α : Type} (key : α → Nat × List Char) (g : α → List Char) :
    ∀ (items : List α) (m0 : TMap) (k : Nat × List Char),
      (∀ x ∈ items, key x ≠ k) →
      (items.foldl (fun m x => m.insert (key x) (g x)) m0) k = m0 k := by
  intro items
  induction items with
  | nil => intro m0 k h; rfl
  | cons a rest ih =>
    intro m0 k h
    simp only [List.foldl_cons]
    rw [ih _ k (fun x hx => h x (List.mem_cons_of_mem a hx))]
    have ha := h a (List.mem_cons_self a rest)
    simp [TMap.insert, Ne.symm ha]

theorem foldl_insert_lookup_fn {α : Type} (key : α → Nat × List Char)
    (f : Nat × List Char → List Char) :
    ∀ (items : List α) (m0 : TMap) (k : Nat × List Char),
      (∃ x ∈ items, key x = k) →
      (items.foldl (fun m x => m.insert (key x) (f (key x))) m0) k = some (f k) := by
  intro items
  induction items with
  | nil => rintro m0 k ⟨x, hx, _⟩; simp at hx
  | cons a rest ih =>
    rintro m0 k ⟨x, hx, hkey⟩
    simp only [List.foldl_cons]
    by_cases hrest : ∃ y ∈ rest, key y = k
    · exact ih _ k hrest
    · have hxa : key a = k := by
        rcases List.mem_cons.mp hx with h1 | h1
        · subst h1; exact hkey
        · exact absurd ⟨x, h1, hkey⟩ hrest
      push_neg at hrest
      rw [foldl_insert_skip key (fun x => f (key x)) rest _ k hrest]
      simp [TMap.insert, hxa]

theorem foldl_insert_lookup_last {α : Type} (key : α → Nat × List Char) (g : α → List Char) :
    ∀ (items : List α) (m0 : TMap) (k : Nat × List Char),
      (items.foldl (fun m x => m.insert (key x) (g x)) m0) k
        = match items.reverse.find? (fun x => decide (key x = k)) with
          | some x => some (g x)
          | none => m0 k := by
  intro items
  induction items with
  | nil => intro m0 k; rfl
  | cons a rest ih =>
    intro m0 k
    simp only [List.foldl_cons, List.reverse_cons]
    rw [ih, List.find?_append]
    cases hfind : rest.reverse.find? (fun x => decide (key x = k)) with
    | some x => simp
    | none =>
      by_cases hka : key a = k
      · rw [List.find?_cons_of_pos _ (by simpa using hka)]
        simp [TMap.insert, hka]
      · rw [List.find?_cons_of_neg _ (by simpa using hka)]
        simp [TMap.insert, Ne.symm hka]

theorem fallbackMap_lookup (svc : Svc) (items : List BatchItem) (it : BatchItem)
    (hmem : it ∈ items) :
    fallbackMap svc items (batchKey it) = some (translateText svc it.text) := by
  exact foldl_insert_lookup_fn batchKey
    (fun k => translateText svc k.2) items TMap.empty (batchKey it) ⟨it, hmem, rfl⟩

theorem translateText_of_error (svc : Svc) (t : List Char) (e : SingleError)
    (h : doSingle svc t = .error e) : translateText svc t = t := by
  unfold translateText
  by_cases hs : pyStrip t = []
  · simp [hs]
  · simp [hs, h]

/-! ## Batch decoding facts -/

theorem findSplitToken_of_contains {t : List Char}
    (h : pyContains t BATCH_SEPARATOR = true) :
    findSplitToken t = some BATCH_SEPARATOR := by
  simp [findSplitToken, h]

theorem findSplitToken_none {t : List Char}
    (h : pyContains t BATCH_SEPARATOR = false) : findSplitToken t = none := by
  rw [findSplitToken, if_neg (by simp [h]), List.find?_eq_none]
  intro v hv hvt
  have hsepv : pyContains v BATCH_SEPARATOR = true := by
    fin_cases hv <;> decide
  have htrans := pyContains_trans hsepv (by simpa using hvt)
  rw [htrans] at h
  simp at h

theorem decode_ok_length {n : Nat} {out : List Char} {parts : List (List Char)}
    (h : decodeBatchResponse n out = .ok parts) : parts.length = n := by
  unfold decodeBatchResponse at h
  split at h
  · simp at h
  · split at h
    · simp at h
    · split at h
      · simp at h
      · rename_i hl
        push_neg at hl
        rw [← Except.ok.inj h]
        exact hl

theorem doBatch_ok_length {svc : Svc} {texts parts : List (List Char)}
    (h : doBatch svc texts = .ok parts) : parts.length = texts.length := by
  unfold doBatch at h
  split at h
  · simp at h
  · split at h
    · simp at h
    · split at h
      · simp at h
      · split at h
        · simp at h
        · simp at h
        · split at h
          · simp at h
          · exact decode_ok_length h

theorem zipfold_lookup (items : List BatchItem) (parts : List (List Char))
    (hlen : parts.length = items.length) (it : BatchItem) (hmem : it ∈ items) :
    ∃ (j : Nat) (hj : j < items.length) (hj2 : j < parts.length),
      batchKey (items.get ⟨j, hj⟩) = batchKey it ∧
      ((items.zip parts).foldl (fun m p => m.insert (batchKey p.1) p.2) TMap.empty)
          (batchKey it) = some (parts.get ⟨j, hj2⟩) := by
  have hlook := foldl_insert_lookup_last (fun p : BatchItem × List Char => batchKey p.1)
    (fun p => p.2) (items.zip parts) TMap.empty (batchKey it)
  obtain ⟨i0, hi0, hit⟩ := List.mem_iff_getElem.mp hmem
  have hzl : (items.zip parts).length = items.length := by
    rw [List.length_zip]; omega
  have hi0z : i0 < (items.zip parts).length := by omega
  have hpair : (items.zip parts).get ⟨i0, hi0z⟩
      = (items.get ⟨i0, hi0⟩, parts.get ⟨i0, by omega⟩) := by
    simp [List.getElem_zip]
  have hmemz : (items.get ⟨i0, hi0⟩, parts.get ⟨i0, by omega⟩) ∈ items.zip parts := by
    rw [← hpair]; exact List.get_mem _ i0 hi0z
  have hsome : ((items.zip parts).reverse.find?
      (fun p => decide (batchKey p.1 = batchKey it))).isSome := by
    rw [List.find?_isSome]
    refine ⟨_, List.mem_reverse.mpr hmemz, ?_⟩
    simp only [List.get_eq_getElem, hit, decide_eq_true_eq]
  cases hfind : (items.zip parts).reverse.find?
      (fun p => decide (batchKey p.1 = batchKey it)) with
  | none => rw [hfind] at hsome; simp at hsome
  | some pr =>
    have hpred : batchKey pr.1 = batchKey it := by
      have := List.find?_some hfind
      simpa using this
    have hprmem : pr ∈ items.zip parts :=
      List.mem_reverse.mp (List.mem_of_find?_eq_some hfind)
    obtain ⟨j, hjz, hjeq⟩ := List.mem_iff_getElem.mp hprmem
    have hj : j < items.length := by omega
    have hj2 : j < parts.length := by omega
    refine ⟨j, hj, hj2, ?_, ?_⟩
    · have : (items.zip parts).get ⟨j, hjz⟩
          = (items.get ⟨j, hj⟩, parts.get ⟨j, hj2⟩) := by
        simp [List.getElem_zip]
      rw [List.get_eq_getElem] at this
      rw [hjeq] at this
      have h1 : pr.1 = items.get ⟨j, hj⟩ := by rw [this]
      rw [← h1]; exact hpred
    · rw [hlook, hfind]
      have : (items.zip parts).get ⟨j, hjz⟩
          = (items.get ⟨j, hj⟩, parts.get ⟨j, hj2⟩) := by
        simp [List.getElem_zip]
      rw [List.get_eq_getElem] at this
      rw [hjeq] at this
      have h2 : pr.2 = parts.get ⟨j, hj2⟩ := by rw [this]
      show some pr.2 = some (parts.get ⟨j, hj2⟩)
      rw [h2]

/-! ## Claim theorems: gateway errors -/

/-- C6: `translateBatch` (`_do_translation_batch`) fails fast — the
result is the same for every service, so the external service is never
consulted — with the empty-batch error on no inputs, the batch-too-long
error when the delimiter-joined string exceeds `MAX_BATCH_CHARS`, and
the separator-collision error when some (within-budget) input already
contains the delimiter sequence.  The guards run in this order. -/
theorem c6_translateBatch_fails_fast (svc : Svc) (texts : List (List Char)) :
    (texts = [] → doBatch svc texts = .error .emptyBatch) ∧
    (texts ≠ [] → MAX_BATCH_CHARS < (List.intercalate BATCH_SEPARATOR texts).length →
      doBatch svc texts
        = .error (.batchTooLong (List.intercalate BATCH_SEPARATOR texts).length
            MAX_BATCH_CHARS)) ∧
    (texts ≠ [] → (List.intercalate BATCH_SEPARATOR texts).length ≤ MAX_BATCH_CHARS →
      (∃ t ∈ texts, pyContains t BATCH_SEPARATOR = true) →
      doBatch svc texts = .error .separatorCollision) := by
  refine ⟨?_, ?_, ?_⟩
  · intro h; subst h; simp [doBatch]
  · intro h1 h2
    unfold doBatch
    rw [if_neg h1, if_pos h2]
  · intro h1 h2 h3
    unfold doBatch
    rw [if_neg h1, if_neg (by omega), if_pos (List.any_eq_true.mpr h3)]

set_option maxRecDepth 10000 in
/-- Witness for C6: the three guards at concrete inputs (an empty batch,
a 1001-character over-budget text that also contains the separator, and
a small colliding text). -/
theorem c6_translateBatch_fails_fast_witness :
    doBatch svc0 [] = .error .emptyBatch ∧
    doBatch svc0 [bigText1001]
      = .error (.batchTooLong (List.intercalate BATCH_SEPARATOR [bigText1001]).length
          MAX_BATCH_CHARS) ∧
    doBatch svc0 ["a|~|~|b".data] = .error .separatorCollision :=
  ⟨(c6_translateBatch_fails_fast svc0 []).1 rfl,
   (c6_translateBatch_fails_fast svc0 [bigText1001]).2.1 (by decide) (by decide),
   (c6_translateBatch_fails_fast svc0 ["a|~|~|b".data]).2.2 (by decide) (by decide)
     ⟨"a|~|~|b".data, by decide, by decide⟩⟩

theorem decode_with_tok (n : Nat) (out tok : List Char)
    (h0 : pyStrip out ≠ []) (htok : findSplitToken (pyStrip out) = some tok) :
    decodeBatchResponse n out
      = if (cleanParts (pyStrip out) tok).length ≠ n then
          .error (.countMismatch n (cleanParts (pyStrip out) tok).length)
        else .ok (cleanParts (pyStrip out) tok) := by
  unfold decodeBatchResponse
  rw [if_neg h0]
  split
  · rename_i heq
    rw [htok] at heq
    exact absurd heq (by simp)
  · rename_i tok2 heq
    rw [htok] at heq
    rw [← Option.some.inj heq]

/-- C9: every delimiter variant tried by the response-splitting logic
contains the exact delimiter as a substring (lower/upper case of
`"|~|~|"` are itself), so decoding returns the delimiter-lost error
exactly when the exact delimiter does not occur in the non-empty trimmed
response. -/
theorem c9_variant_lost_iff_exact_lost :
    sepVariants.all (fun v => pyContains v BATCH_SEPARATOR) = true ∧
    ∀ (n : Nat) (out : List Char),
      decodeBatchResponse n out = .error .separatorLost ↔
        (pyStrip out ≠ [] ∧ pyContains (pyStrip out) BATCH_SEPARATOR = false) := by
  refine ⟨by decide, ?_⟩
  intro n out
  by_cases h0 : pyStrip out = []
  · unfold decodeBatchResponse
    rw [if_pos h0]
    simp [h0]
  · cases hc : pyContains (pyStrip out) BATCH_SEPARATOR with
    | true =>
      constructor
      · intro hdec
        rw [decode_with_tok n out BATCH_SEPARATOR h0 (findSplitToken_of_contains hc)]
          at hdec
        by_cases hl : (cleanParts (pyStrip out) BATCH_SEPARATOR).length ≠ n
        · rw [if_pos hl] at hdec; exact absurd hdec (by simp)
        · rw [if_neg hl] at hdec; exact absurd hdec (by simp)
      · rintro ⟨_, hfalse⟩
        exact absurd hfalse (by simp)
    | false =>
      have hdec : decodeBatchResponse n out = .error .separatorLost := by
        unfold decodeBatchResponse
        rw [if_neg h0, findSplitToken_none hc]
      simp [hdec, h0]

/-- C10: a single-call response that exits 0 but whose trimmed stdout is
empty or contains "error" or "failed" case-insensitively is treated as a
failure by `_do_translation_single`, and `_translate_text` then keeps
the original text. -/
theorem c10_error_words_rejected (svc : Svc) (text out errS : List Char)
    (hsvc : svc text = .done 0 out errS)
    (hbad : pyStrip out = []
        ∨ pyContains (lowerL (pyStrip out)) "error".data = true
        ∨ pyContains (lowerL (pyStrip out)) "failed".data = true) :
    doSingle svc text = .error .emptyOrError ∧ translateText svc text = text := by
  have hcond : ((pyStrip out).isEmpty || pyContains (lowerL (pyStrip out)) "error".data
      || pyContains (lowerL (pyStrip out)) "failed".data) = true := by
    rcases hbad with h | h | h
    · simp [h]
    · simp [h]
    · simp [h]
  have hsingle : doSingle svc text = .error .emptyOrError := by
    unfold doSingle
    rw [hsvc]
    simp only
    rw [if_neg (by simp), if_pos hcond]
  exact ⟨hsingle, translateText_of_error svc text _ hsingle⟩

/-- Witness for C10: a service that exits 0 with output
"Mission failed successfully" is rejected and "Hi" is kept. -/
theorem c10_error_words_rejected_witness :
    doSingle svcWord "Hi".data = .error .emptyOrError ∧
    translateText svcWord "Hi".data = "Hi".data :=
  c10_error_words_rejected svcWord "Hi".data "Mission failed successfully".data []
    rfl (Or.inr (Or.inr (by decide)))

/-- C3: once the response splits into segments, the batch is accepted
exactly when the cleaned (trimmed, non-empty) segment count equals the
input count, a mismatch yields the count-mismatch error for the whole
chunk, and any batch error makes every item of the chunk fall back to
its own individual `_translate_text` result — no partially-aligned batch
is ever applied. -/
theorem c3_count_mismatch_rejected (n : Nat) (out tok : List Char)
    (htok : findSplitToken (pyStrip out) = some tok) :
    ((decodeBatchResponse n out = .ok (cleanParts (pyStrip out) tok) ↔
        (cleanParts (pyStrip out) tok).length = n) ∧
      ((cleanParts (pyStrip out) tok).length ≠ n →
        decodeBatchResponse n out
          = .error (.countMismatch n (cleanParts (pyStrip out) tok).length))) ∧
    ∀ (svc : Svc) (items : List BatchItem) (e : BatchError),
      doBatch svc (items.map BatchItem.text) = .error e →
      ∀ it ∈ items,
        processBatchTranslation svc items (batchKey it)
          = some (translateText svc it.text) := by
  have h0 : pyStrip out ≠ [] := by
    intro h
    rw [h] at htok
    have hn : findSplitToken ([] : List Char) = none := by decide
    rw [hn] at htok
    exact Option.noConfusion htok
  refine ⟨⟨?_, ?_⟩, ?_⟩
  · rw [decode_with_tok n out tok h0 htok]
    constructor
    · intro hdec
      by_cases hl : (cleanParts (pyStrip out) tok).length ≠ n
      · rw [if_pos hl] at hdec; exact absurd hdec (by simp)
      · push_neg at hl; exact hl
    · intro hl
      rw [if_neg (by omega)]
  · intro hl
    rw [decode_with_tok n out tok h0 htok, if_pos hl]
  · intro svc items e herr it hmem
    have hne : items.isEmpty = false := by
      cases items with
      | nil => simp at hmem
      | cons a r => rfl
    unfold processBatchTranslation
    rw [if_neg (by simp [hne]), herr]
    exact fallbackMap_lookup svc items it hmem

/-- Witness for C3: a two-text batch whose response has three segments is
rejected with the count-mismatch error, and both items fall back to
individual calls (which time out, keeping the original texts). -/
theorem c3_count_mismatch_rejected_witness :
    decodeBatchResponse 2 "x|~|~|y|~|~|z".data = .error (.countMismatch 2 3) ∧
    processBatchTranslation svc3 items3 (1, "a".data) = some "a".data ∧
    processBatchTranslation svc3 items3 (2, "b".data) = some "b".data := by
  have hthm := c3_count_mismatch_rejected 2 "x|~|~|y|~|~|z".data BATCH_SEPARATOR
    (by decide)
  refine ⟨hthm.1.2 (by decide), ?_, ?_⟩
  · exact hthm.2 svc3 items3 (.countMismatch 2 3) rfl
      ⟨"a".data, 1, ⟨0, 3, "a".data⟩, "\"a\"".data⟩ (by decide)
  · exact hthm.2 svc3 items3 (.countMismatch 2 3) rfl
      ⟨"b".data, 2, ⟨0, 3, "b".data⟩, "\"b\"".data⟩ (by decide)

theorem processBatch_of_error (svc : Svc) (items : List BatchItem) (e : BatchError)
    (hne : items.isEmpty = false)
    (hbatch : doBatch svc (items.map BatchItem.text) = .error e) :
    processBatchTranslation svc items = fallbackMap svc items := by
  unfold processBatchTranslation
  rw [if_neg (by simp [hne])]
  split
  · rename_i parts2 heq
    rw [hbatch] at heq
    exact absurd heq (by simp)
  · rfl

theorem processBatch_of_ok_empty (svc : Svc) (items : List BatchItem)
    (hne : items.isEmpty = false)
    (hbatch : doBatch svc (items.map BatchItem.text) = .ok []) :
    processBatchTranslation svc items = fallbackMap svc items := by
  unfold processBatchTranslation
  rw [if_neg (by simp [hne])]
  split
  · rename_i parts2 heq
    rw [hbatch] at heq
    have h2 : ([] : List (List Char)) = parts2 := Except.ok.inj heq
    rw [← h2]
    rfl
  · rfl

theorem processBatch_of_ok (svc : Svc) (items : List BatchItem)
    (parts : List (List Char)) (hne : items.isEmpty = false)
    (hbatch : doBatch svc (items.map BatchItem.text) = .ok parts)
    (hpne : parts.isEmpty = false) :
    processBatchTranslation svc items
      = (items.zip parts).foldl (fun m p => m.insert (batchKey p.1) p.2) TMap.empty := by
  unfold processBatchTranslation
  rw [if_neg (by simp [hne])]
  split
  · rename_i parts2 heq
    rw [hbatch] at heq
    have h2 : parts = parts2 := Except.ok.inj heq
    subst h2
    rw [if_neg (by simp [hpne])]
  · rename_i e heq
    rw [hbatch] at heq
    exact absurd heq (by simp)

/-- C4: every dispatched batch item resolves to exactly one entry of the
returned result map under its `(line_num, text)` key: a zip-paired batch
translation on batch success, the individual `_translate_text` result on
batch failure, and the original text when that individual call fails too
— no item is ever left unresolved and no failure aborts the run. -/
theorem c4_every_item_resolved (svc : Svc) (items : List BatchItem) (it : BatchItem)
    (hmem : it ∈ items) :
    ∃ v, processBatchTranslation svc items (batchKey it) = some v ∧
      (∀ e, doBatch svc (items.map BatchItem.text) = .error e →
        v = translateText svc it.text) ∧
      (∀ e e2, doBatch svc (items.map BatchItem.text) = .error e →
        doSingle svc it.text = .error e2 → v = it.text) ∧
      (∀ parts, doBatch svc (items.map BatchItem.text) = .ok parts → parts ≠ [] →
        ∃ (j : Nat) (hj : j < items.length) (hj2 : j < parts.length),
          batchKey (items.get ⟨j, hj⟩) = batchKey it ∧ v = parts.get ⟨j, hj2⟩) := by
  have hne : items.isEmpty = false := by
    cases items with
    | nil => simp at hmem
    | cons a r => rfl
  cases hbatch : doBatch svc (items.map BatchItem.text) with
  | error e0 =>
    refine ⟨translateText svc it.text, ?_, ?_, ?_, ?_⟩
    · rw [processBatch_of_error svc items e0 hne hbatch]
      exact fallbackMap_lookup svc items it hmem
    · intro e he; rfl
    · intro e e2 he h2; exact translateText_of_error svc it.text e2 h2
    · intro parts hp; exact absurd hp (by simp)
  | ok parts0 =>
    cases parts0 with
    | nil =>
      refine ⟨translateText svc it.text, ?_, ?_, ?_, ?_⟩
      · rw [processBatch_of_ok_empty svc items hne hbatch]
        exact fallbackMap_lookup svc items it hmem
      · intro e he; exact absurd he (by simp)
      · intro e e2 he h2; exact absurd he (by simp)
      · intro parts hp hne2
        exact absurd (Except.ok.inj hp).symm hne2
    | cons p0 ps =>
      have hlen : (p0 :: ps).length = items.length := by
        have := doBatch_ok_length hbatch
        simpa using this
      obtain ⟨j, hj, hj2, hkey, hlook⟩ := zipfold_lookup items (p0 :: ps) hlen it hmem
      refine ⟨(p0 :: ps).get ⟨j, hj2⟩, ?_, ?_, ?_, ?_⟩
      · rw [processBatch_of_ok svc items (p0 :: ps) hne hbatch rfl]
        exact hlook
      · intro e he; exact absurd he (by simp)
      · intro e e2 he h2; exact absurd he (by simp)
      · intro parts hp hne2
        have hpp : (p0 :: ps) = parts := Except.ok.inj hp
        subst hpp
        exact ⟨j, hj, hj2, hkey, rfl⟩

/-- Witness for C4: a single-item batch whose service times out resolves
through the fallback to its original text. -/
theorem c4_every_item_resolved_witness :
    ∃ v, processBatchTranslation svc0 items4 (batchKey ⟨"hi".data, 1, ⟨0, 4, "hi".data⟩,
        "\"hi\"".data⟩) = some v ∧
      (∀ e, doBatch svc0 (items4.map BatchItem.text) = .error e →
        v = translateText svc0 "hi".data) ∧
      (∀ e e2, doBatch svc0 (items4.map BatchItem.text) = .error e →
        doSingle svc0 "hi".data = .error e2 → v = "hi".data) ∧
      (∀ parts, doBatch svc0 (items4.map BatchItem.text) = .ok parts → parts ≠ [] →
        ∃ (j : Nat) (hj : j < items4.length) (hj2 : j < parts.length),
          batchKey (items4.get ⟨j, hj⟩)
            = batchKey ⟨"hi".data, 1, ⟨0, 4, "hi".data⟩, "\"hi\"".data⟩ ∧
          v = parts.get ⟨j, hj2⟩) :=
  c4_every_item_resolved svc0 items4 ⟨"hi".data, 1, ⟨0, 4, "hi".data⟩, "\"hi\"".data⟩
    (by decide)

/-! ## Facts about the quoted-span scanner -/

theorem findMatchesGo_facts :
    ∀ (fuel : Nat) (cs : List Char) (pos : Nat), cs.length ≤ fuel →
      (∀ s ∈ findMatchesGo fuel cs pos,
        pos ≤ s.start ∧ s.stop = s.start + s.text.length + 2 ∧ s.stop ≤ pos + cs.length) ∧
      List.Pairwise (fun a b => a.stop ≤ b.start) (findMatchesGo fuel cs pos) := by
  intro fuel
  induction fuel with
  | zero =>
    intro cs pos hlen
    have : cs = [] := List.eq_nil_of_length_eq_zero (Nat.le_zero.mp hlen)
    subst this
    simp [findMatchesGo]
  | succ fuel ih =>
    intro cs pos hlen
    cases cs with
    | nil => simp [findMatchesGo]
    | cons c rest =>
      simp only [List.length_cons] at hlen
      by_cases hc : c = '"'
      · simp only [findMatchesGo, if_pos hc]
        cases hsq : splitAtQuote rest with
        | none => simp
        | some pr =>
          obtain ⟨inner, rest'⟩ := pr
          have hre : rest = inner ++ '"' :: rest' := splitAtQuote_eq rest inner rest' hsq
          have hrlen : rest.length = inner.length + 1 + rest'.length := by
            rw [hre]; simp; omega
          have hfl : rest'.length ≤ fuel := by omega
          obtain ⟨ihf, ihp⟩ := ih rest' (pos + inner.length + 2) hfl
          constructor
          · intro s hs
            rcases List.mem_cons.mp hs with rfl | hs'
            · refine ⟨Nat.le_refl _, rfl, ?_⟩
              simp only [List.length_cons]
              omega
            · obtain ⟨h1, h2, h3⟩ := ihf s hs'
              refine ⟨by omega, h2, ?_⟩
              simp only [List.length_cons]
              omega
          · rw [List.pairwise_cons]
            refine ⟨?_, ihp⟩
            intro b hb
            exact (ihf b hb).1
      · simp only [findMatchesGo, if_neg hc]
        obtain ⟨ihf, ihp⟩ := ih rest (pos + 1) (by omega)
        refine ⟨?_, ihp⟩
        intro s hs
        obtain ⟨h1, h2, h3⟩ := ihf s hs
        refine ⟨by omega, h2, ?_⟩
        simp only [List.length_cons]
        omega

theorem findMatches_bounds (line : List Char) :
    ∀ s ∈ findMatches line, s.start + 2 ≤ s.stop ∧ s.stop ≤ line.length := by
  intro s hs
  obtain ⟨h1, h2, h3⟩ :=
    (findMatchesGo_facts line.length line 0 (Nat.le_refl _)).1 s hs
  refine ⟨by omega, by simpa using h3⟩

theorem findMatches_pairwise (line : List Char) :
    List.Pairwise (fun a b => a.stop ≤ b.start) (findMatches line) :=
  (findMatchesGo_facts line.length line 0 (Nat.le_refl _)).2

theorem texts_sub_matches (cs : List Char) (line_num : Nat) :
    ∀ s ∈ (mkPending cs line_num).texts_to_translate, s ∈ findMatches cs := by
  intro s hs
  exact List.mem_of_mem_filter hs

theorem texts_pairwise (cs : List Char) (line_num : Nat) :
    List.Pairwise (fun a b => a.stop ≤ b.start)
      ((mkPending cs line_num).texts_to_translate) := by
  exact (findMatches_pairwise cs).filter _

/-! ## The descending sort -/

theorem insertDesc_of_forall (s : Span) :
    ∀ (l : List Span), (∀ t ∈ l, ¬ t.start ≤ s.start) → insertDesc s l = l ++ [s] := by
  intro l
  induction l with
  | nil => intro h; rfl
  | cons t ts ih =>
    intro h
    simp only [insertDesc, if_neg (h t (List.mem_cons_self t ts))]
    rw [ih (fun u hu => h u (List.mem_cons_of_mem t hu))]
    simp

theorem sortDesc_of_ascending :
    ∀ (l : List Span), List.Pairwise (fun a b => a.start < b.start) l →
      sortDesc l = l.reverse := by
  intro l
  induction l with
  | nil => intro h; rfl
  | cons a rest ih =>
    intro h
    obtain ⟨hhead, htail⟩ := List.pairwise_cons.mp h
    show insertDesc a (sortDesc rest) = (a :: rest).reverse
    rw [ih htail, insertDesc_of_forall a rest.reverse ?_, List.reverse_cons]
    intro t ht
    have := hhead t (List.mem_reverse.mp ht)
    omega

/-! ## The splice fold versus simultaneous replacement -/

theorem replaceRanges_split (l : List (Span × List Char)) (cs : List Char)
    (base k : Nat) (hbk : base ≤ k)
    (hl : ∀ p ∈ l, k ≤ p.1.start ∧ p.1.start ≤ p.1.stop) :
    replaceRanges cs base l = cs.take (k - base) ++ replaceRanges (cs.drop (k - base)) k l := by
  cases l with
  | nil => simp [replaceRanges]
  | cons p rest =>
    obtain ⟨s, t⟩ := p
    have hs : k ≤ s.start ∧ s.start ≤ s.stop := hl (s, t) (List.mem_cons_self _ _)
    simp only [replaceRanges]
    rw [List.drop_drop,
      show (k - base) + (s.stop - k) = s.stop - base from by omega,
      show s.start - base = (k - base) + (s.start - k) from by omega,
      List.take_add, List.append_assoc]

theorem foldl_splice_eq_replaceRanges :
    ∀ (l : List (Span × List Char)) (cs : List Char),
      (∀ p ∈ l, p.1.start ≤ p.1.stop ∧ p.1.stop ≤ cs.length) →
      List.Pairwise (fun a b => a.1.stop ≤ b.1.start) l →
      l.reverse.foldl
        (fun cur p => cur.take p.1.start ++ '"' :: (p.2 ++ '"' :: cur.drop p.1.stop)) cs
        = replaceRanges cs 0 l := by
  intro l
  induction l with
  | nil => intro cs h1 h2; rfl
  | cons p rest ih =>
    obtain ⟨s, t⟩ := p
    intro cs h1 h2
    obtain ⟨hpw1, hpw2⟩ := List.pairwise_cons.mp h2
    rw [List.reverse_cons, List.foldl_append]
    simp only [List.foldl_cons, List.foldl_nil]
    rw [ih cs (fun q hq => h1 q (List.mem_cons_of_mem _ hq)) hpw2]
    have hhead : s.start ≤ s.stop ∧ s.stop ≤ cs.length :=
      h1 (s, t) (List.mem_cons_self _ _)
    have hrest : ∀ q ∈ rest, s.stop ≤ q.1.start ∧ q.1.start ≤ q.1.stop := by
      intro q hq
      exact ⟨hpw1 q hq, (h1 q (List.mem_cons_of_mem _ hq)).1⟩
    rw [replaceRanges_split rest cs 0 s.stop (Nat.zero_le _) hrest]
    simp only [Nat.sub_zero]
    have hlentake : (cs.take s.stop).length = s.stop := by
      rw [List.length_take]
      omega
    rw [List.take_append_of_le_length (by omega),
      List.drop_left' hlentake,
      List.take_take, Nat.min_eq_left hhead.1]
    simp only [replaceRanges, Nat.sub_zero]

theorem pairwise_dichotomy {α : Type} {R : α → α → Prop} :
    ∀ {l : List α}, List.Pairwise R l → ∀ {a b : α}, a ∈ l → b ∈ l →
      a = b ∨ R a b ∨ R b a := by
  intro l hpw
  induction hpw with
  | nil => intro a b ha _; simp at ha
  | cons hhead htail ih =>
    intro a b ha hb
    rcases List.mem_cons.mp ha with rfl | ha'
    · rcases List.mem_cons.mp hb with rfl | hb'
      · exact Or.inl rfl
      · exact Or.inr (Or.inl (hhead b hb'))
    · rcases List.mem_cons.mp hb with rfl | hb'
      · exact Or.inr (Or.inr (hhead a ha'))
      · exact ih ha' hb'

theorem replaceRanges_preserves_slice :
    ∀ (l : List (Span × List Char)) (cs : List Char) (base a b : Nat),
      base ≤ a → a ≤ b →
      (∀ p ∈ l, base ≤ p.1.start ∧ p.1.start ≤ p.1.stop) →
      List.Pairwise (fun p q => p.1.stop ≤ q.1.start) l →
      (∀ p ∈ l, p.1.stop ≤ a ∨ b ≤ p.1.start) →
      ∃ x y, replaceRanges cs base l
        = x ++ ((cs.drop (a - base)).take (b - a)) ++ y := by
  intro l
  induction l with
  | nil =>
    intro cs base a b hba hab _ _ _
    refine ⟨cs.take (a - base), (cs.drop (a - base)).drop (b - a), ?_⟩
    simp only [replaceRanges]
    rw [List.append_assoc, List.take_append_drop, List.take_append_drop]
  | cons p rest ih =>
    obtain ⟨s, t⟩ := p
    intro cs base a b hba hab hbound hpw havoid
    obtain ⟨hpw1, hpw2⟩ := List.pairwise_cons.mp hpw
    have hs : base ≤ s.start ∧ s.start ≤ s.stop :=
      hbound (s, t) (List.mem_cons_self _ _)
    rcases havoid (s, t) (List.mem_cons_self _ _) with hL | hR
    · have hL' : s.stop ≤ a := hL
      have hrests : ∀ q ∈ rest, s.stop ≤ q.1.start ∧ q.1.start ≤ q.1.stop := by
        intro q hq
        exact ⟨hpw1 q hq, (hbound q (List.mem_cons_of_mem _ hq)).2⟩
      obtain ⟨x, y, hxy⟩ := ih (cs.drop (s.stop - base)) s.stop a b (by omega) hab
        hrests hpw2 (fun q hq => havoid q (List.mem_cons_of_mem _ hq))
      refine ⟨cs.take (s.start - base) ++ '"' :: (t ++ '"' :: x), y, ?_⟩
      rw [replaceRanges, hxy, List.drop_drop,
        show (s.stop - base) + (a - s.stop) = a - base from by omega]
      simp [List.append_assoc]
    · have hR' : b ≤ s.start := hR
      refine ⟨cs.take (a - base),
        ((cs.drop (a - base)).drop (b - a)).take (s.start - b) ++ '"' ::
          (t ++ '"' :: replaceRanges (cs.drop (s.stop - base)) s.stop rest), ?_⟩
      rw [replaceRanges,
        show s.start - base = ((a - base) + (b - a)) + (s.start - b) from by omega,
        List.take_add, List.take_add, List.drop_drop]
      simp [List.append_assoc]

theorem mkPending_original_line (cs : List Char) (n : Nat) :
    (mkPending cs n).original_line = cs := rfl

theorem mkPending_line_num (cs : List Char) (n : Nat) :
    (mkPending cs n).line_num = n := rfl

/-- C5: the per-line rewriting loop — descending-start splices over the
current buffer with `(line_num, text)` lookups falling back to the
original span text — computes exactly the simultaneous replacement of
every qualifying span's byte range `[start, stop)` in the original line,
with the trailing newline restored.  Descending order is what makes the
fold equal to the simultaneous replacement: no splice invalidates the
offsets of still-unprocessed earlier spans. -/
theorem c5_rewrite_is_simultaneous (tmap : TMap) (line_num : Nat) (cs : List Char) :
    rewriteLine tmap (mkPending cs line_num)
      = replaceRanges cs 0
          ((mkPending cs line_num).texts_to_translate.map
            (fun s => (s, tmap.getD (line_num, s.text) s.text))) ++ ['\n'] := by
  have hbounds : ∀ s ∈ (mkPending cs line_num).texts_to_translate,
      s.start + 2 ≤ s.stop ∧ s.stop ≤ cs.length := by
    intro s hs
    exact findMatches_bounds cs s (texts_sub_matches cs line_num s hs)
  have hpw := texts_pairwise cs line_num
  have hstrict : List.Pairwise (fun a b : Span => a.start < b.start)
      ((mkPending cs line_num).texts_to_translate) := by
    refine hpw.imp_of_mem ?_
    intro a b ha hb hab
    have := (hbounds a ha).1
    omega
  have hb2 : ∀ p ∈ ((mkPending cs line_num).texts_to_translate.map
      (fun s => (s, tmap.getD (line_num, s.text) s.text))),
      p.1.start ≤ p.1.stop ∧ p.1.stop ≤ cs.length := by
    intro p hp
    obtain ⟨q, hq, hpq⟩ := List.mem_map.mp hp
    obtain ⟨h1, h2⟩ := hbounds q hq
    rw [← hpq]
    refine ⟨?_, h2⟩
    show q.start ≤ q.stop
    omega
  have hpw2 : List.Pairwise (fun a b => a.1.stop ≤ b.1.start)
      ((mkPending cs line_num).texts_to_translate.map
        (fun s => (s, tmap.getD (line_num, s.text) s.text))) := by
    rw [List.pairwise_map]
    exact hpw
  have hmain := foldl_splice_eq_replaceRanges
    ((mkPending cs line_num).texts_to_translate.map
      (fun s => (s, tmap.getD (line_num, s.text) s.text))) cs hb2 hpw2
  rw [← List.map_reverse, List.foldl_map] at hmain
  unfold rewriteLine
  simp only [mkPending_original_line, mkPending_line_num]
  rw [sortDesc_of_ascending _ hstrict]
  exact congrArg (fun l => l ++ ['\n']) hmain

/-- C7: a span on which the classifier returns `false` is excluded from
the pending spans, and the rewritten line preserves that span's bytes
verbatim: the output decomposes as a processed left part, the untouched
original slice `[start, stop)`, and a processed right part. -/
theorem c7_skipped_span_preserved (cs : List Char) (line_num : Nat) (tmap : TMap)
    (sk : Span) (hmem : sk ∈ findMatches cs)
    (hskip : shouldTranslate cs sk = false) :
    sk ∉ (mkPending cs line_num).texts_to_translate ∧
    ∃ x y, rewriteLine tmap (mkPending cs line_num)
      = x ++ ((cs.drop sk.start).take (sk.stop - sk.start)) ++ y := by
  have hnotmem : sk ∉ (mkPending cs line_num).texts_to_translate := by
    intro hin
    have := List.of_mem_filter hin
    simp [hskip] at this
  refine ⟨hnotmem, ?_⟩
  have hskb := findMatches_bounds cs sk hmem
  have hb2 : ∀ p ∈ ((mkPending cs line_num).texts_to_translate.map
      (fun s => (s, tmap.getD (line_num, s.text) s.text))),
      0 ≤ p.1.start ∧ p.1.start ≤ p.1.stop := by
    intro p hp
    obtain ⟨q, hq, hpq⟩ := List.mem_map.mp hp
    have hqb := findMatches_bounds cs q (texts_sub_matches cs line_num q hq)
    rw [← hpq]
    refine ⟨Nat.zero_le _, ?_⟩
    show q.start ≤ q.stop
    omega
  have hpw2 : List.Pairwise (fun a b => a.1.stop ≤ b.1.start)
      ((mkPending cs line_num).texts_to_translate.map
        (fun s => (s, tmap.getD (line_num, s.text) s.text))) := by
    rw [List.pairwise_map]
    exact texts_pairwise cs line_num
  have havoid : ∀ p ∈ ((mkPending cs line_num).texts_to_translate.map
      (fun s => (s, tmap.getD (line_num, s.text) s.text))),
      p.1.stop ≤ sk.start ∨ sk.stop ≤ p.1.start := by
    intro p hp
    obtain ⟨q, hq, hpq⟩ := List.mem_map.mp hp
    have hqm : q ∈ findMatches cs := texts_sub_matches cs line_num q hq
    have hqne : q ≠ sk := by
      intro h
      subst h
      have := List.of_mem_filter hq
      simp [hskip] at this
    rcases pairwise_dichotomy (findMatches_pairwise cs) hqm hmem with h | h | h
    · exact absurd h hqne
    · rw [← hpq]; exact Or.inl h
    · rw [← hpq]; exact Or.inr h
  obtain ⟨x, y, hxy⟩ := replaceRanges_preserves_slice
    ((mkPending cs line_num).texts_to_translate.map
      (fun s => (s, tmap.getD (line_num, s.text) s.text))) cs 0 sk.start sk.stop
    (Nat.zero_le _) (by omega) hb2 hpw2 havoid
  refine ⟨x, y ++ ['\n'], ?_⟩
  rw [c5_rewrite_is_simultaneous tmap line_num cs, hxy]
  simp [List.append_assoc]

/-- Witness for C7: the scenario line `"Hello there" "image.png"` — the
second span is skipped (asset extension), preserved verbatim, and with a
translation available for the first span only the first quoted span is
replaced. -/
theorem c7_skipped_span_preserved_witness :
    span7 ∈ findMatches line7 ∧ shouldTranslate line7 span7 = false ∧
    (span7 ∉ (mkPending line7 1).texts_to_translate ∧
      ∃ x y, rewriteLine tmap7 (mkPending line7 1)
        = x ++ ((line7.drop span7.start).take (span7.stop - span7.start)) ++ y) ∧
    rewriteLine tmap7 (mkPending line7 1) = "\"Halo\" \"image.png\"\n".data :=
  ⟨by decide, by decide,
   c7_skipped_span_preserved line7 1 tmap7 span7 (by decide) (by decide),
   by decide⟩

/-! ## The batch-mode driver loop -/

theorem processPendingTagged_fst (svc : Svc) (pl : List PendingInfo) :
    (processPendingTagged svc pl).map Prod.fst = pl.map PendingInfo.line_num := by
  unfold processPendingTagged
  rw [List.map_map]
  rfl

theorem processLine_pending_num (line : List Char) (i : Nat) (info : PendingInfo)
    (h : processLine line i = .pending info) : info.line_num = i := by
  simp only [processLine] at h
  split at h
  · exact absurd h (by simp)
  · rw [← Processed.pending.inj h]
    rfl

theorem stepLine_passthrough (svc : Svc) (total : Nat) (st : RunSt) (i : Nat)
    (line out : List Char) (h : processLine line i = .passthrough out) :
    stepLine svc total st i line = { st with results := st.results ++ [(i, out)] } := by
  unfold stepLine
  rw [h]

theorem stepLine_pending_ite (svc : Svc) (total : Nat) (st : RunSt) (i : Nat)
    (line : List Char) (info : PendingInfo)
    (h : processLine line i = .pending info) :
    stepLine svc total st i line
      = if BATCH_SIZE ≤ (st.pending ++ [info]).length ∨ i = total ∨ i % 100 = 0 then
          { results := st.results ++ processPendingTagged svc (st.pending ++ [info]),
            pending := [] }
        else { st with pending := st.pending ++ [info] } := by
  unfold stepLine
  rw [h]

theorem stepLine_pending_flush (svc : Svc) (total : Nat) (st : RunSt) (i : Nat)
    (line : List Char) (info : PendingInfo)
    (h : processLine line i = .pending info)
    (hc : BATCH_SIZE ≤ (st.pending ++ [info]).length ∨ i = total ∨ i % 100 = 0) :
    stepLine svc total st i line
      = { results := st.results ++ processPendingTagged svc (st.pending ++ [info]),
          pending := [] } := by
  rw [stepLine_pending_ite svc total st i line info h, if_pos hc]

theorem stepLine_pending_defer (svc : Svc) (total : Nat) (st : RunSt) (i : Nat)
    (line : List Char) (info : PendingInfo)
    (h : processLine line i = .pending info)
    (hc : ¬(BATCH_SIZE ≤ (st.pending ++ [info]).length ∨ i = total ∨ i % 100 = 0)) :
    stepLine svc total st i line = { st with pending := st.pending ++ [info] } := by
  rw [stepLine_pending_ite svc total st i line info h, if_neg hc]

theorem range'_snoc (k : Nat) : List.range' 1 (k + 1) = List.range' 1 k ++ [k + 1] := by
  rw [List.range'_concat]
  have : 1 + 1 * k = k + 1 := by omega
  rw [this]

theorem runFrom_ordered (svc : Svc) (total : Nat) :
    ∀ (ls : List (List Char)) (k : Nat) (st : RunSt),
      k + ls.length = total →
      st.results.map Prod.fst ++ st.pending.map PendingInfo.line_num
        = List.range' 1 k →
      (st.pending ≠ [] → k < total) →
      cleanFrom svc total st (k + 1) ls = true →
      (runFrom svc total st (k + 1) ls).results.map Prod.fst
        = List.range' 1 total := by
  intro ls
  induction ls with
  | nil =>
    intro k st htot hinv hpend hclean
    simp only [List.length_nil, Nat.add_zero] at htot
    subst htot
    show st.results.map Prod.fst = List.range' 1 k
    have hp : st.pending = [] := by
      by_contra h
      exact absurd (hpend h) (lt_irrefl k)
    rw [hp] at hinv
    simpa using hinv
  | cons l ls ih =>
    intro k st htot hinv hpend hclean
    simp only [List.length_cons] at htot
    simp only [cleanFrom, Bool.and_eq_true] at hclean
    obtain ⟨hclean1, hclean2⟩ := hclean
    show (runFrom svc total (stepLine svc total st (k + 1) l) (k + 1 + 1) ls).results.map
        Prod.fst = _
    cases hproc : processLine l (k + 1) with
    | passthrough out =>
      have hpe : st.pending = [] := by
        rw [hproc] at hclean1
        simp only [Processed.isPassthrough, Bool.not_true, Bool.false_or] at hclean1
        exact List.isEmpty_iff.mp hclean1
      have hres : st.results.map Prod.fst = List.range' 1 k := by
        rw [hpe] at hinv
        simpa using hinv
      rw [stepLine_passthrough svc total st (k + 1) l out hproc]
      rw [stepLine_passthrough svc total st (k + 1) l out hproc] at hclean2
      refine ih (k + 1) _ (by omega) ?_ ?_ hclean2
      · rw [hpe]
        simp only [List.map_append, List.map_cons, List.map_nil, List.append_nil]
        rw [hres, ← range'_snoc]
      · intro h
        rw [hpe] at h
        simp at h
    | pending info =>
      have hnum : info.line_num = k + 1 := processLine_pending_num l (k + 1) info hproc
      by_cases hflush : BATCH_SIZE ≤ (st.pending ++ [info]).length ∨ (k + 1) = total
          ∨ (k + 1) % 100 = 0
      · rw [stepLine_pending_flush svc total st (k + 1) l info hproc hflush]
        rw [stepLine_pending_flush svc total st (k + 1) l info hproc hflush] at hclean2
        refine ih (k + 1) _ (by omega) ?_ ?_ hclean2
        · simp only [List.map_append, List.map_nil, List.append_nil]
          rw [processPendingTagged_fst]
          simp only [List.map_append, List.map_cons, List.map_nil]
          rw [← List.append_assoc, hinv, hnum, ← range'_snoc]
        · intro h
          simp at h
      · rw [stepLine_pending_defer svc total st (k + 1) l info hproc hflush]
        rw [stepLine_pending_defer svc total st (k + 1) l info hproc hflush] at hclean2
        refine ih (k + 1) _ (by omega) ?_ ?_ hclean2
        · simp only [List.map_append, List.map_cons, List.map_nil]
          rw [← List.append_assoc, hinv, hnum, ← range'_snoc]
        · intro _
          push_neg at hflush
          omega

/-- C2 counterexample: for the file `"A"` / `# c` / `"B"`, the comment
line is emitted immediately while line 1 is still pending, so the output
lists the source lines in the order 2, 1, 3 — not the original order. -/
theorem c2_order_counterexample :
    (runBatchTagged svc0 fileInterleaved).map Prod.fst = [2, 1, 3] ∧
    (runBatchTagged svc0 fileInterleaved).map Prod.fst
      ≠ List.range' 1 fileInterleaved.length ∧
    runBatch svc0 fileInterleaved
      = ["# c\n".data, "\"A\"\n".data, "\"B\"\n".data] := by
  refine ⟨rfl, by decide, rfl⟩

/-- C2 amended: non-candidate (blank/comment/`$`) lines are emitted the
moment they are read while candidate lines are emitted at the flush that
clears them, so a passthrough line read while candidates are pending
precedes them in the output; when every passthrough line is read with
the pending set empty, the emitted lines carry the source line numbers
1..n in order. -/
theorem c2_order_preserved_when_clean (svc : Svc) (lines : List (List Char))
    (hclean : cleanFrom svc lines.length ⟨[], []⟩ 1 lines = true) :
    (runBatchTagged svc lines).map Prod.fst = List.range' 1 lines.length := by
  have h0 : (0 : Nat) + 1 = 1 := rfl
  have := runFrom_ordered svc lines.length lines 0 ⟨[], []⟩ (by omega)
    (by rfl) (by intro h; exact absurd rfl h) hclean
  exact this

/-- Witness for the amended C2: a comment line followed by a candidate
line — the comment is read with nothing pending, and the output is in
original order. -/
theorem c2_order_preserved_when_clean_witness :
    cleanFrom svc0 fileClean.length ⟨[], []⟩ 1 fileClean = true ∧
    (runBatchTagged svc0 fileClean).map Prod.fst
      = List.range' 1 fileClean.length :=
  ⟨by decide, c2_order_preserved_when_clean svc0 fileClean (by decide)⟩

/-- C1 (code bug witness): the batch-mode loop of `run` never flushes
the pending set after the last line, because the end-of-file flush
condition sits inside the pending branch.  For the file `"Hello"` /
`# end`, the deferred first line is dropped: the loop terminates with a
non-empty pending set, the output holds only the comment line, and the
text `Hello` appears nowhere in it. -/
theorem c1_pending_dropped_at_eof :
    runBatch svc0 fileTrailing = ["# end\n".data] ∧
    (runFrom svc0 fileTrailing.length ⟨[], []⟩ 1 fileTrailing).pending ≠ [] ∧
    (runBatch svc0 fileTrailing).all (fun out => !pyContains out "Hello".data)
      = true := by
  refine ⟨rfl, by decide, by decide⟩

/-- C8 counterexample: for a batch of 5 texts whose response pads every
delimiter with stray spaces, splitting does not use the whitespace-padded
variant: the exact delimiter is a substring of the padded response, so
the exact-delimiter branch is taken (the split token is `"|~|~|"`, not
`" |~|~| "`), even though the batch is accepted. -/
theorem c8_not_via_padded_variant :
    findSplitToken (pyStrip resp8) ≠ some ((' ' :: BATCH_SEPARATOR) ++ [' ']) ∧
    findSplitToken (pyStrip resp8) = some BATCH_SEPARATOR ∧
    doBatch svc8 texts8 = .ok parts8 := by
  refine ⟨by decide, by decide, rfl⟩

/-- C8 amended: for a batch of 5 texts where the service returns the
joined string with the delimiter surrounded by stray spaces, splitting
succeeds on the exact delimiter (which the padded response still
contains), per-segment trimming strips the stray spaces, the segment
count matches the input count, and the batch result map carries the
batch translations — the individual-call fallback (which would return
the original texts under this service) is not used. -/
theorem c8_padded_response_batch_accepted :
    doBatch svc8 texts8 = .ok parts8 ∧
    findSplitToken (pyStrip resp8) = some BATCH_SEPARATOR ∧
    (cleanParts (pyStrip resp8) BATCH_SEPARATOR).length = texts8.length ∧
    processBatchTranslation svc8 items8 (1, "good morning".data)
      = some "Selamat pagi".data ∧
    processBatchTranslation svc8 items8 (2, "thank you".data)
      = some "terima kasih".data ∧
    processBatchTranslation svc8 items8 (3, "see you".data)
      = some "sampai jumpa".data ∧
    processBatchTranslation svc8 items8 (4, "welcome".data)
      = some "selamat datang".data ∧
    processBatchTranslation svc8 items8 (5, "hello".data)
      = some "halo".data := by
  exact ⟨rfl, by decide, by decide, rfl, rfl, rfl, rfl, rfl⟩
